import Mathlib

/-!
Verification development for the cruisereplay repository (Go).

Shallow embedding conventions:
* `time.Time` values are embedded as `Int` nanoseconds since Go's zero time
  (0001-01-01T00:00:00 UTC).  `Before` is `<`, `Equal` is `=`, `IsZero` is
  `= 0`, and `Truncate(time.Second)` rounds down to a multiple of a second
  (floor, matching Go's rounding toward the zero time).
* Go strings are embedded as Lean `String`s; byte indexing/lengths in the
  source are identified with character indexing (exact for the ASCII data
  these feeds carry; the underway feed even strips non-ASCII bytes first).
* `sort.SliceStable(data, less)` is embedded as `List.mergeSort` with the
  complementary boolean relation `le a b = ¬ less b a` (for a total order on
  times this is `time a ≤ time b`); this is the unique stable sort for the
  given comparator, which is what `sort.SliceStable` guarantees.
* Fallible operations return `Option`; a fatal `panic` is `none`.
* The float64 division `float64(delta.Nanoseconds()) / warp` followed by the
  `time.Duration` (int64) conversion is embedded as exact rational division
  followed by truncation toward zero (`ratTrunc`); IEEE division of a
  nonnegative numerator by a positive factor is nonnegative, so this model
  agrees with the source on every sign question and on the exact values used
  in the concrete scenarios below.
-/

namespace CruiseReplay

/-! ## Time model -/

def nsPerSec : Int := 1000000000

/-- `time.Time.Truncate(time.Second)`: floor to a whole second. -/
def truncSec (t : Int) : Int := nsPerSec * Int.fdiv t nsPerSec

/-- Gregorian leap-year test, as used by Go's `time` package. -/
def isLeap (y : Int) : Bool := y % 4 == 0 && (y % 100 != 0 || y % 400 == 0)

def daysInMonth (y m : Int) : Int :=
  if m = 2 then (if isLeap y then 29 else 28)
  else if m = 4 ∨ m = 6 ∨ m = 9 ∨ m = 11 then 30
  else 31

/-- Days from 1970-01-01 to the civil date `y-m-d` (proleptic Gregorian). -/
def daysFromCivil (y m d : Int) : Int :=
  let y' := if m ≤ 2 then y - 1 else y
  let era := Int.fdiv y' 400
  let yoe := y' - era * 400
  let mp := if m > 2 then m - 3 else m + 9
  let doy := Int.fdiv (153 * mp + 2) 5 + d - 1
  let doe := yoe * 365 + Int.fdiv yoe 4 - Int.fdiv yoe 100 + doy
  era * 146097 + doe - 719468

/-- Days from 0001-01-01 (Go's zero time) to 1970-01-01. -/
def goEpochDays : Int := 719162

/-- A UTC civil date-time as `Int` nanoseconds since Go's zero time. -/
def goTimeNS (y m d hh mi ss ns : Int) : Int :=
  ((daysFromCivil y m d + goEpochDays) * 86400 + hh * 3600 + mi * 60 + ss) * nsPerSec + ns

/-- Range validation performed by Go's `time.Parse` for an RFC3339 timestamp. -/
def validDate (y m d hh mi ss : Int) : Bool :=
  0 ≤ y && y ≤ 9999 && 1 ≤ m && m ≤ 12 && 1 ≤ d && d ≤ daysInMonth y m &&
  0 ≤ hh && hh < 24 && 0 ≤ mi && mi < 60 && 0 ≤ ss && ss < 60

/-! ## Character-level parsing helpers -/

def digitVal (c : Char) : Int := (c.toNat : Int) - 48

def d2 (a b : Char) : Int := 10 * digitVal a + digitVal b

def d4 (a b c d : Char) : Int :=
  1000 * digitVal a + 100 * digitVal b + 10 * digitVal c + digitVal d

/-- Fractional-second digits to nanoseconds (first nine digits, right-padded),
as in Go's fractional-second parsing. -/
def fracNS (ds : List Char) : Int :=
  let ds9 := ds.take 9
  (ds9.foldl (fun acc c => 10 * acc + digitVal c) 0) * (10 : Int) ^ (9 - ds9.length)

/-- `filepath.Base` for slash-separated paths. -/
def filepathBase (p : String) : String :=
  if p = "" then "."
  else
    let cs := (p.toList.reverse.dropWhile (· = '/'))
    if cs = [] then "/"
    else ⟨(cs.takeWhile (· ≠ '/')).reverse⟩

/-- `timeFromFilename` (src/feeds/feeds.go): match the anchored pattern
`(\d\x7b4\x7d-\d\x7b2\x7d-\d\x7b2\x7dT\d\x7b2\x7d)-(\d\x7b2\x7d)-(\d\x7b2\x7d(\.\d+)?)` against the base name
(arbitrary trailing text allowed), force the offset to `+00:00`, and parse the
rebuilt RFC3339 string.  Returns `none` when the pattern does not match or
`time.Parse` rejects the field ranges. -/
def timeFromFilename (fn : String) : Option Int :=
  match (filepathBase fn).toList with
  | y1 :: y2 :: y3 :: y4 :: '-' :: mo1 :: mo2 :: '-' :: dd1 :: dd2 :: 'T' ::
      h1 :: h2 :: '-' :: mi1 :: mi2 :: '-' :: s1 :: s2 :: rest =>
    if ([y1, y2, y3, y4, mo1, mo2, dd1, dd2, h1, h2, mi1, mi2, s1, s2].all Char.isDigit) then
      let ns : Int :=
        match rest with
        | '.' :: more =>
          if (more.takeWhile Char.isDigit) ≠ [] then fracNS (more.takeWhile Char.isDigit) else 0
        | _ => 0
      let y := d4 y1 y2 y3 y4
      let mo := d2 mo1 mo2
      let dd := d2 dd1 dd2
      let hh := d2 h1 h2
      let mi := d2 mi1 mi2
      let ss := d2 s1 s2
      if validDate y mo dd hh mi ss then some (goTimeNS y mo dd hh mi ss ns) else none
    else none
  | _ => none

/-- Timestamp extraction for one SFL first field (`NewSfl`): take the first 19
characters, overwrite positions 13 and 16 with `:`, append `+00:00`, and parse
as RFC3339 (so the characters at positions 13 and 16 are ignored). -/
def sflFieldTime (field : String) : Option Int :=
  match field.toList with
  | y1 :: y2 :: y3 :: y4 :: '-' :: mo1 :: mo2 :: '-' :: dd1 :: dd2 :: 'T' ::
      h1 :: h2 :: _ :: mi1 :: mi2 :: _ :: s1 :: s2 :: _ =>
    if ([y1, y2, y3, y4, mo1, mo2, dd1, dd2, h1, h2, mi1, mi2, s1, s2].all Char.isDigit) then
      let y := d4 y1 y2 y3 y4
      let mo := d2 mo1 mo2
      let dd := d2 dd1 dd2
      let hh := d2 h1 h2
      let mi := d2 mi1 mi2
      let ss := d2 s1 s2
      if validDate y mo dd hh mi ss then some (goTimeNS y mo dd hh mi ss 0) else none
    else none
  | _ => none

/-! ## Records and warnings -/

structure Warning where
  err : String
deriving Repr, DecidableEq

structure underwayRecord where
  time : Int
  data : String
deriving Repr, DecidableEq

structure sflRecord where
  time : Int
  idx : Nat
  data : String
deriving Repr, DecidableEq

structure evtFile where
  time : Int
  path : String
deriving Repr, DecidableEq

structure seaLogRecord where
  time : Int
  data : String
deriving Repr, DecidableEq

/-! ## Stable sort by time

`sort.SliceStable(data, func(i, j) bool { return data[i].time.Before(data[j].time) })`
is embedded as the stable `List.mergeSort` with the complementary boolean
relation `le a b = ¬ (time b < time a) = time a ≤ time b`. -/

def leKey (key : α → Int) : α → α → Bool := fun a b => decide (key a ≤ key b)

def sortByTime (key : α → Int) (l : List α) : List α := l.mergeSort (leKey key)

/-! ## EVT feed (NewEvt, src/unnamed/part_000) -/

/-- Ingestion loop of `NewEvt`: one entry per file, in discovery order; a file
whose name fails `timeFromFilename` is still appended, carrying the zero time,
together with one warning. -/
def evtRaw : List String → List evtFile × List Warning
  | [] => ([], [])
  | f :: rest =>
    let p := evtRaw rest
    match timeFromFilename f with
    | some t => (⟨t, f⟩ :: p.1, p.2)
    | none => (⟨0, f⟩ :: p.1, ⟨"evt: bad timestamp in " ++ f⟩ :: p.2)

/-- `NewEvt`: ingest, then stable sort ascending by time. -/
def newEvtData (files : List String) : List evtFile × List Warning :=
  (sortByTime (fun r => r.time) (evtRaw files).1, (evtRaw files).2)

/-! ## SFL feed (NewSfl, src/unnamed/part_001) -/

structure SflFile where
  path : String
  lines : List String

inductive SflLineResult where
  | ok (t : Int)
  | badParse
  | unqual
deriving Repr, DecidableEq

/-- `strings.Split` on a single tab character, at character level: the parts
between tabs, one part even for the empty string. -/
def splitTab : List Char → List (List Char)
  | [] => [[]]
  | c :: rest =>
    match splitTab rest with
    | [] => [[]]
    | cur :: done =>
      if c = '\t' then [] :: cur :: done else (c :: cur) :: done

/-- `cols := strings.Split(lineText, "\t")`. -/
def sflCols (line : String) : List String :=
  (splitTab line.toList).map (fun cs => String.mk cs)

/-- Per-line qualification and timestamp extraction of `NewSfl`: a data line
qualifies only when splitting on tab yields more than one column and the first
column is exactly 25 characters wide; a qualifying line may still fail the
timestamp parse. -/
def sflClassify (line : String) : SflLineResult :=
  match sflCols line with
  | c0 :: _ :: _ =>
    if c0.length = 25 then
      match sflFieldTime c0 with
      | some t => SflLineResult.ok t
      | none => SflLineResult.badParse
    else SflLineResult.unqual
  | _ => SflLineResult.unqual

def sflWarnParse (path : String) (n : Nat) : Warning :=
  ⟨"sfl: could not parse timestamp " ++ path ++ ":" ++ toString n⟩

def sflWarnUnqual (path : String) (n : Nat) : Warning :=
  ⟨"sfl: unparsable line " ++ path ++ ":" ++ toString n⟩

/-- Data-line loop of `NewSfl` for one file, starting at line number `n`
(line 1 is the retained header; the loop below runs from line 2 on).  The
record built from line 2 is prefixed with the header joined by CRLF. -/
def sflLines (path : String) (idx : Nat) (header : String) :
    Nat → List String → List sflRecord × List Warning
  | _, [] => ([], [])
  | n, line :: rest =>
    let p := sflLines path idx header (n + 1) rest
    match sflClassify line with
    | SflLineResult.ok t =>
      (⟨t, idx, if n = 2 then header ++ "\r\n" ++ line else line⟩ :: p.1, p.2)
    | SflLineResult.badParse => (p.1, sflWarnParse path n :: p.2)
    | SflLineResult.unqual => (p.1, sflWarnUnqual path n :: p.2)

/-- One file of `NewSfl`: line 1 is kept as header, the rest are data lines. -/
def sflFileData (path : String) (idx : Nat) : List String → List sflRecord × List Warning
  | [] => ([], [])
  | header :: rest => sflLines path idx header 2 rest

/-- Ingestion of `NewSfl` before the sort: every file (tagged with its index)
processed in order, records and warnings concatenated. -/
def sflRaw (files : List SflFile) : List sflRecord × List Warning :=
  ((files.enum.map (fun pr => (sflFileData pr.2.path pr.1 pr.2.lines).1)).flatten,
   (files.enum.map (fun pr => (sflFileData pr.2.path pr.1 pr.2.lines).2)).flatten)

/-- `NewSfl`: ingest every file, then stable sort ascending by time. -/
def newSflData (files : List SflFile) : List sflRecord × List Warning :=
  (sortByTime (fun r => r.time) (sflRaw files).1, (sflRaw files).2)

/-! ## Underway feed (NewUnderway, src/feeds/underway.go)

The external `cruisemic` line parser is an excluded collaborator; its outcome
for each input line is taken as input: a parse error (one warning), a parsed
but incomplete sentence (dropped silently), or a complete sentence carrying
the parsed time and the cleaned line text. -/

inductive UwLine where
  | err (msg : String)
  | incomplete
  | ok (t : Int) (line : String)
deriving Repr, DecidableEq

/-- Scan loop of `NewUnderway` (1-based line counter `i`). -/
def uwRaw : Nat → List UwLine → List underwayRecord × List Warning
  | _, [] => ([], [])
  | i, l :: rest =>
    let p := uwRaw (i + 1) rest
    match l with
    | UwLine.err m => (p.1, ⟨"underway: line " ++ toString (i + 1) ++ ": " ++ m⟩ :: p.2)
    | UwLine.incomplete => (p.1, p.2)
    | UwLine.ok t line => (⟨t, line⟩ :: p.1, p.2)

/-- `strings.Join(lines, "\n")`. -/
def joinLines : List String → String
  | [] => ""
  | [s] => s
  | s :: rest => s ++ "\n" ++ joinLines rest

/-- Inner loop of the coalescing step of `NewUnderway`: `t` is the truncated
second of the run being accumulated, `lines` its payloads in order, `newdata`
the finished runs. -/
def coalesceLoop (t : Int) (lines : List String) (newdata : List underwayRecord) :
    List underwayRecord → List underwayRecord
  | [] => newdata ++ [⟨t, joinLines lines⟩]
  | r :: rest =>
    if truncSec r.time = t then coalesceLoop t (lines ++ [r.data]) newdata rest
    else coalesceLoop (truncSec r.time) [r.data] (newdata ++ [⟨t, joinLines lines⟩]) rest

/-- Coalescing step of `NewUnderway` (lines 78–94): collapse consecutive
records whose times truncate to the same whole second into one record, keyed
by that truncated second, payload the original lines joined by a line break. -/
def coalesce : List underwayRecord → List underwayRecord
  | [] => []
  | r :: rest => coalesceLoop (truncSec r.time) [r.data] [] rest

/-- `NewUnderway`: scan, stable sort ascending by time, then coalesce. -/
def newUnderwayData (lines : List UwLine) : List underwayRecord × List Warning :=
  (coalesce (sortByTime (fun r => r.time) (uwRaw 0 lines).1), (uwRaw 0 lines).2)

/-! ## SeaFlow instrument log feed (NewSeaLog, src/feeds/underway.go part 2)

The external `seaflog` event scanner is an excluded collaborator; its stream
of classified events is taken as input. -/

structure SeaLogEvent where
  name : String
  time : Int
  line : String
  lineNumber : Nat
deriving Repr, DecidableEq

/-- Scan loop of `NewSeaLog`: events named "unhandled" become warnings, all
others become records. -/
def seaLogRaw : List SeaLogEvent → List seaLogRecord × List Warning
  | [] => ([], [])
  | e :: rest =>
    let p := seaLogRaw rest
    if e.name ≠ "unhandled" then (⟨e.time, e.line⟩ :: p.1, p.2)
    else (p.1, ⟨"seaflowlog: unhandled event at line " ++ toString e.lineNumber ++ ": " ++ e.line⟩ :: p.2)

/-- `NewSeaLog`: scan, then stable sort ascending by time. -/
def newSeaLogData (events : List SeaLogEvent) : List seaLogRecord × List Warning :=
  (sortByTime (fun r => r.time) (seaLogRaw events).1, (seaLogRaw events).2)

/-! ## Emitter contract pieces shared by all feeds -/

/-- `Earliest()`: time of the first record, or the zero time when empty. -/
def earliest (key : α → Int) : List α → Int
  | [] => 0
  | r :: _ => key r

/-- Cursor advance `Next()` of every feed: `if i+1 < len(data) then i++; true
else false`.  `n` is the record count, `i` the cursor (initially `-1`). -/
def nextStep (n : Nat) (i : Int) : Int × Bool :=
  if i + 1 < (n : Int) then (i + 1, true) else (i, false)

/-- Cursor and list of results after `k` successive `Next()` calls, starting
from the freshly constructed state `i = -1`. -/
def nextIter (n : Nat) : Nat → Int × List Bool
  | 0 => (-1, [])
  | k + 1 =>
    let p := nextIter n k
    let q := nextStep n p.1
    (q.1, p.2 ++ [q.2])

/-- `Sfl.Close` state: the lazily opened output handle (or `none`). -/
structure SflCloseState where
  file : Option String
deriving Repr, DecidableEq

/-- `Sfl.Close` as written in the source: `if s.file != nil \x7b err = s.Close();
s = nil \x7d; return` — the branch calls the method itself again on an unchanged
receiver.  `fuel` bounds the recursion depth; `none` means the call is still
recursing when the bound runs out (for every bound: non-termination). -/
def sflCloseRec : Nat → SflCloseState → Option (Option String)
  | 0, _ => none
  | fuel + 1, s => if s.file.isSome then sflCloseRec fuel s else some none

/-! ## Replay scheduler (cmd/root.go) -/

/-- `minTime`: fold over the emitters' `Earliest()` values; a zero `first` is
replaced unconditionally, otherwise a strictly earlier value replaces it. -/
def minTime (es : List Int) : Int :=
  es.foldl (fun first t => if first = 0 ∨ t < first then t else first) 0

/-- The 5-second startup grace (`time.ParseDuration("5s")`). -/
def graceNS : Int := 5 * nsPerSec

/-- `replayStart := time.Now().Add(delay)`. -/
def replayStart (now : Int) : Int := now + graceNS

/-- Truncation toward zero of a rational, as in Go's float64-to-int64
conversion `time.Duration(x)`. -/
def ratTrunc (x : ℚ) : Int := x.num.tdiv (x.den : Int)

/-- The warped delay of one record: `time.Duration(float64(delta.Nanoseconds()) / warp)`. -/
def warpDelay (warp : ℚ) (deltaNS : Int) : Int := ratTrunc ((deltaNS : ℚ) / warp)

/-- The driver loop `startEmitter`, per record: skip records strictly before
the cruise start; otherwise compute the warped delay, panic (`none`) if it is
negative, else schedule the record at `replayStart + delay`.  The result is
the list of (delay, record) pairs passed to `Emit`, in order. -/
def startEmitterRun (key : α → Int) (cruiseStart : Int) (warp : ℚ) :
    List α → Option (List (Int × α))
  | [] => some []
  | r :: rest =>
    if key r < cruiseStart then startEmitterRun key cruiseStart warp rest
    else
      let delta := warpDelay warp (key r - cruiseStart)
      if delta < 0 then none
      else (startEmitterRun key cruiseStart warp rest).map (fun l => (delta, r) :: l)

/-- The emission schedule the driver produces when no panic occurs: every
record not strictly before the cruise start, paired with its warped delay. -/
def emitSchedule (key : α → Int) (cruiseStart : Int) (warp : ℚ) (recs : List α) :
    List (Int × α) :=
  (recs.filter (fun r => decide (cruiseStart ≤ key r))).map
    (fun r => (warpDelay warp (key r - cruiseStart), r))

/-- The two EVT file names of the spec's timing scenario. -/
def scenarioFiles : List String :=
  ["2021-05-01T10-00-00+00-00", "2021-05-01T10-00-05+00-00"]

/-! ## Generic lemmas about the stable sort -/

theorem leKey_trans (key : α → Int) :
    ∀ a b c, leKey key a b → leKey key b c → leKey key a c := by
  intro a b c hab hbc
  simp only [leKey, decide_eq_true_eq] at *
  omega

theorem leKey_total (key : α → Int) : ∀ a b, leKey key a b || leKey key b a := by
  intro a b
  simp only [leKey, Bool.or_eq_true, decide_eq_true_eq]
  omega

theorem sortByTime_pairwise (key : α → Int) (l : List α) :
    (sortByTime key l).Pairwise (fun a b => key a ≤ key b) := by
  have h := List.sorted_mergeSort (leKey_trans key) (leKey_total key) l
  exact h.imp (fun hab => by simpa [leKey] using hab)

theorem sortByTime_perm (key : α → Int) (l : List α) : List.Perm (sortByTime key l) l :=
  List.mergeSort_perm l (leKey key)

theorem sortByTime_filter_time (key : α → Int) (l : List α) (t : Int) :
    (sortByTime key l).filter (fun r => decide (key r = t))
      = l.filter (fun r => decide (key r = t)) := by
  set p : α → Bool := fun r => decide (key r = t) with hp
  have hpw : (l.filter p).Pairwise (fun a b => leKey key a b = true) := by
    apply List.pairwise_of_forall_mem_list
    intro a ha b hb
    have ha' := (List.mem_filter.mp ha).2
    have hb' := (List.mem_filter.mp hb).2
    simp only [hp, decide_eq_true_eq] at ha' hb'
    simp [leKey, ha', hb']
  have h1 : List.Sublist (l.filter p) (sortByTime key l) :=
    List.sublist_mergeSort (leKey_trans key) (leKey_total key) hpw (List.filter_sublist l)
  have h3 : List.Sublist (l.filter p) ((sortByTime key l).filter p) := by
    have := h1.filter p
    simpa [List.filter_filter] using this
  have h4 : ((sortByTime key l).filter p).length = (l.filter p).length :=
    ((sortByTime_perm key l).filter p).length_eq
  exact (h3.eq_of_length h4.symm).symm

/-! ## Claim C9: cursor advance -/

theorem nextIter_characterization (n k : Nat) :
    (nextIter n k).1 = ((min k n : Nat) : Int) - 1
    ∧ (nextIter n k).2 = List.replicate (min k n) true ++ List.replicate (k - n) false := by
  induction k with
  | zero => simp [nextIter]
  | succ k ih =>
    obtain ⟨h1, h2⟩ := ih
    by_cases hkn : k < n
    · have hmin : min k n = k := by omega
      have hq : nextStep n (nextIter n k).1 = ((k : Int), true) := by
        rw [nextStep, h1, hmin]
        have hc : ((k : Int)) - 1 + 1 < (n : Int) := by omega
        have he : ((k : Int)) - 1 + 1 = (k : Int) := by omega
        rw [if_pos hc, he]
      have hmin1 : min (k + 1) n = k + 1 := by omega
      constructor
      · simp only [nextIter, hq, hmin1]
        push_cast
        omega
      · simp only [nextIter, hq, h2, hmin1, hmin]
        have hkn0 : k - n = 0 := by omega
        have hkn0' : k + 1 - n = 0 := by omega
        simp [hkn0, hkn0', List.replicate_succ' k]
    · have hmin : min k n = n := by omega
      have hq : nextStep n (nextIter n k).1 = ((n : Int) - 1, false) := by
        rw [nextStep, h1, hmin]
        have hc : ¬ ((n : Int)) - 1 + 1 < (n : Int) := by omega
        rw [if_neg hc]
      have hmin1 : min (k + 1) n = n := by omega
      constructor
      · simp only [nextIter, hq, hmin1]
      · simp only [nextIter, hq, h2, hmin1, hmin]
        have hs : k + 1 - n = (k - n) + 1 := by omega
        rw [hs, List.replicate_succ' (k - n), List.append_assoc]

/-- C9: for every feed variant, the shared cursor advance `Next()` moves the
cursor forward by exactly one per `true` result, never past the record count,
returns `false` once past the last record and keeps returning `false` with an
unchanged cursor thereafter; over `k` calls it returns `true` exactly
`min k Len` times, hence exactly `Len()` times in total. -/
theorem next_cursor_forward (n k : Nat) :
    (nextIter n k).1 = ((min k n : Nat) : Int) - 1
    ∧ (nextIter n k).2 = List.replicate (min k n) true ++ List.replicate (k - n) false
    ∧ (nextIter n k).2.count true = min k n := by
  obtain ⟨h1, h2⟩ := nextIter_characterization n k
  refine ⟨h1, h2, ?_⟩
  rw [h2]
  simp [List.count_append, List.count_replicate]

theorem next_cursor_forward_witness :
    (nextIter 2 5).1 = ((min 5 2 : Nat) : Int) - 1
    ∧ (nextIter 2 5).2 = List.replicate (min 5 2) true ++ List.replicate (5 - 2) false
    ∧ (nextIter 2 5).2.count true = min 5 2 :=
  next_cursor_forward 2 5

/-! ## Claim C2: Close -/

/-- C2 (refuted by the source, supporting the code-bug verdict): `Sfl.Close`
assigns `err = s.Close()` — a call to itself on an unchanged receiver — instead
of `s.file.Close()`, so whenever an output file is open the call never
terminates: under every recursion-depth bound it is still recursing.  The
claimed idempotent, always-terminating `Close` is refuted for the SFL feed. -/
theorem sflClose_diverges_when_file_open (fuel : Nat) (s : SflCloseState)
    (h : s.file.isSome) : sflCloseRec fuel s = none := by
  induction fuel with
  | zero => rfl
  | succ n ih => simpa [sflCloseRec, h] using ih

theorem sflClose_diverges_when_file_open_witness :
    (SflCloseState.mk (some "SFlog.txt")).file.isSome = true
    ∧ sflCloseRec 1000 (SflCloseState.mk (some "SFlog.txt")) = none :=
  ⟨rfl, sflClose_diverges_when_file_open 1000 _ rfl⟩

/-! ## Claim C10: unqualified SFL data lines -/

theorem sflClassify_no_tab (line : String) (h : (sflCols line).length = 1) :
    sflClassify line = SflLineResult.unqual := by
  unfold sflClassify
  cases hsp : sflCols line with
  | nil => simp [hsp] at h
  | cons c0 tl =>
    cases tl with
    | nil => simp [hsp]
    | cons c1 tl' => simp [hsp] at h

/-- C10: a data line that does not split into at least two tab-separated
fields never becomes a record and contributes exactly one warning, whatever
its first (only) field's width — in particular even when that field is exactly
25 characters wide, as the witness below instantiates. -/
theorem sfl_unqualified_line_one_warning (path : String) (idx : Nat) (header : String)
    (n : Nat) (line : String) (rest : List String)
    (h : (sflCols line).length = 1) :
    sflLines path idx header n (line :: rest)
      = ((sflLines path idx header (n + 1) rest).1,
         sflWarnUnqual path n :: (sflLines path idx header (n + 1) rest).2) := by
  simp [sflLines, sflClassify_no_tab line h]

theorem sfl_unqualified_line_one_warning_witness :
    (sflCols "2021-05-01T10-00-00+00-00").length = 1
    ∧ ("2021-05-01T10-00-00+00-00" : String).length = 25
    ∧ sflLines "x.sfl" 0 "HEAD" 2 ["2021-05-01T10-00-00+00-00"]
      = ((sflLines "x.sfl" 0 "HEAD" 3 []).1,
         sflWarnUnqual "x.sfl" 2 :: (sflLines "x.sfl" 0 "HEAD" 3 []).2) :=
  ⟨by decide, by decide,
   sfl_unqualified_line_one_warning "x.sfl" 0 "HEAD" 2 _ [] (by decide)⟩

/-! ## Claim C8: header survives on the second line -/

theorem sflLines_payload_is_own_line (path : String) (idx : Nat) (header : String) :
    ∀ (ls : List String) (n : Nat), 3 ≤ n →
      ∀ r ∈ (sflLines path idx header n ls).1, r.data ∈ ls := by
  intro ls
  induction ls with
  | nil => intro n _ r hr; simp [sflLines] at hr
  | cons line rest ih =>
    intro n hn r hr
    rw [sflLines] at hr
    cases hcl : sflClassify line with
    | ok t =>
      rw [hcl] at hr
      simp only [List.mem_cons] at hr ⊢
      rcases hr with hr | hr
      · left
        have hne : n ≠ 2 := by omega
        simp [hr, hne]
      · right; exact ih (n + 1) (by omega) r hr
    | badParse =>
      rw [hcl] at hr
      exact List.mem_cons_of_mem _ (ih (n + 1) (by omega) r hr)
    | unqual =>
      rw [hcl] at hr
      exact List.mem_cons_of_mem _ (ih (n + 1) (by omega) r hr)

/-- C8: for a delimited-log file, the record built from the file's second line
carries the retained header joined to that line by the CRLF line terminator,
while the records built from all later lines carry exactly their own line
text. -/
theorem sfl_second_line_header (path : String) (idx : Nat) (header l2 : String)
    (rest : List String) (t : Int) (h : sflClassify l2 = SflLineResult.ok t) :
    (sflFileData path idx (header :: l2 :: rest)).1
      = ⟨t, idx, header ++ "\r\n" ++ l2⟩ :: (sflLines path idx header 3 rest).1
    ∧ ∀ r ∈ (sflLines path idx header 3 rest).1, r.data ∈ rest := by
  constructor
  · simp [sflFileData, sflLines, h]
  · exact fun r hr => sflLines_payload_is_own_line path idx header rest 3 (by omega) r hr

theorem sfl_second_line_header_witness :
    sflClassify "2021-05-01T10-00-05+00-00\t37.5"
      = SflLineResult.ok (goTimeNS 2021 5 1 10 0 5 0)
    ∧ (sflFileData "f.sfl" 0 ["HEAD", "2021-05-01T10-00-05+00-00\t37.5", "junk"]).1
        = ⟨goTimeNS 2021 5 1 10 0 5 0, 0, "HEAD" ++ "\r\n" ++ "2021-05-01T10-00-05+00-00\t37.5"⟩
            :: (sflLines "f.sfl" 0 "HEAD" 3 ["junk"]).1
    ∧ ∀ r ∈ (sflLines "f.sfl" 0 "HEAD" 3 ["junk"]).1, r.data ∈ ["junk"] := by
  have h : sflClassify "2021-05-01T10-00-05+00-00\t37.5"
      = SflLineResult.ok (goTimeNS 2021 5 1 10 0 5 0) := by decide
  have hm := sfl_second_line_header "f.sfl" 0 "HEAD" "2021-05-01T10-00-05+00-00\t37.5" ["junk"]
    (goTimeNS 2021 5 1 10 0 5 0) h
  exact ⟨h, hm.1, hm.2⟩

/-! ## Coalescing lemmas (claim C1 and the underway half of C7) -/

theorem coalesceLoop_acc (rest : List underwayRecord) :
    ∀ (t : Int) (lines : List String) (nd : List underwayRecord),
      coalesceLoop t lines nd rest = nd ++ coalesceLoop t lines [] rest := by
  induction rest with
  | nil => intro t lines nd; simp [coalesceLoop]
  | cons r rs ih =>
    intro t lines nd
    by_cases h : truncSec r.time = t
    · simp only [coalesceLoop, if_pos h]
      rw [ih _ _ nd, ih _ _ ([] : List underwayRecord)]
    · simp only [coalesceLoop, if_neg h]
      rw [ih]
      conv_rhs => rw [ih]
      simp [List.append_assoc]

theorem coalesceLoop_run (t : Int) :
    ∀ (A : List underwayRecord) (lines : List String) (B : List underwayRecord),
      (∀ r ∈ A, truncSec r.time = t) →
      (∀ b ∈ B.head?, truncSec b.time ≠ t) →
      coalesceLoop t lines [] (A ++ B)
        = ⟨t, joinLines (lines ++ A.map (fun r => r.data))⟩ :: coalesce B := by
  intro A
  induction A with
  | nil =>
    intro lines B _ hB
    cases B with
    | nil => simp [coalesceLoop, coalesce]
    | cons b bs =>
      have hb : truncSec b.time ≠ t := hB b (by simp)
      show coalesceLoop t lines [] (b :: bs) = _
      simp only [coalesceLoop, if_neg hb]
      rw [coalesceLoop_acc]
      simp [coalesce]
  | cons a A' ih =>
    intro lines B hA hB
    have ha : truncSec a.time = t := hA a (by simp)
    have hstep : coalesceLoop t lines [] ((a :: A') ++ B)
        = coalesceLoop t (lines ++ [a.data]) [] (A' ++ B) := by
      show coalesceLoop t lines [] (a :: (A' ++ B)) = _
      simp only [coalesceLoop, if_pos ha]
    rw [hstep, ih (lines ++ [a.data]) B (fun r hr => hA r (by simp [hr])) hB]
    simp [List.append_assoc]

/-- C1, counterexample to the claim as stated: a single record (trivially
unique per truncated second) whose timestamp has a sub-second component is
changed by coalescing — its time is replaced by the truncated second, so the
step is not a no-op. -/
theorem coalesce_noop_counterexample :
    coalesce [⟨1500000000, "a"⟩] ≠ [⟨1500000000, "a"⟩] := by decide

/-- C1, amended: coalescing keys every output record by the truncated second.
(1) On a record list whose timestamps are pairwise distinct per truncated
second and already lie on whole seconds, coalescing is a no-op.  (2) A leading
run of records sharing one truncated second `t`, followed by records whose
first element does not share `t`, coalesces to exactly one record with time
`t` whose payload is the run's payloads joined by a line break in original
order, followed by the coalescing of the remainder. -/
theorem coalesce_amended :
    (∀ l : List underwayRecord,
       l.Pairwise (fun a b => truncSec a.time ≠ truncSec b.time) →
       (∀ r ∈ l, truncSec r.time = r.time) → coalesce l = l)
    ∧ (∀ (A B : List underwayRecord) (t : Int),
         A ≠ [] → (∀ r ∈ A, truncSec r.time = t) →
         (∀ b ∈ B.head?, truncSec b.time ≠ t) →
         coalesce (A ++ B) = ⟨t, joinLines (A.map (fun r => r.data))⟩ :: coalesce B) := by
  constructor
  · intro l
    induction l with
    | nil => intro _ _; rfl
    | cons r rest ih =>
      intro hpw hwhole
      have hhead : ∀ b ∈ rest.head?, truncSec b.time ≠ truncSec r.time := by
        intro b hb
        have hmem : b ∈ rest := by
          cases rest with
          | nil => simp at hb
          | cons x xs => simp at hb; simp [hb]
        exact fun he => (List.rel_of_pairwise_cons hpw hmem) he.symm
      have hrun := coalesceLoop_run (truncSec r.time) [] [r.data] rest
        (by intro x hx; simp at hx) hhead
      have hr : truncSec r.time = r.time := hwhole r (by simp)
      calc coalesce (r :: rest)
          = coalesceLoop (truncSec r.time) [r.data] [] rest := rfl
        _ = ⟨truncSec r.time, joinLines [r.data]⟩ :: coalesce rest := by
            simpa using hrun
        _ = r :: coalesce rest := by rw [hr]; rfl
        _ = r :: rest := by
            rw [ih (hpw.of_cons) (fun x hx => hwhole x (List.mem_cons_of_mem r hx))]
  · intro A B t hA hAt hB
    cases A with
    | nil => exact absurd rfl hA
    | cons a A' =>
      have ha : truncSec a.time = t := hAt a (by simp)
      have hrun := coalesceLoop_run t A' [a.data] B
        (fun r hr => hAt r (by simp [hr])) hB
      calc coalesce ((a :: A') ++ B)
          = coalesceLoop (truncSec a.time) [a.data] [] (A' ++ B) := rfl
        _ = coalesceLoop t [a.data] [] (A' ++ B) := by rw [ha]
        _ = ⟨t, joinLines ([a.data] ++ A'.map (fun r => r.data))⟩ :: coalesce B := hrun
        _ = ⟨t, joinLines ((a :: A').map (fun r => r.data))⟩ :: coalesce B := by
            simp

theorem coalesce_amended_witness :
    coalesce [⟨0, "a"⟩, ⟨2000000000, "b"⟩] = [⟨0, "a"⟩, ⟨2000000000, "b"⟩]
    ∧ coalesce ([⟨0, "a"⟩, ⟨500000000, "b"⟩] ++ [⟨2000000000, "c"⟩])
        = ⟨0, joinLines ["a", "b"]⟩ :: coalesce [⟨2000000000, "c"⟩] := by
  constructor
  · exact coalesce_amended.1 [⟨0, "a"⟩, ⟨2000000000, "b"⟩] (by decide) (by decide)
  · have h := coalesce_amended.2 [⟨0, "a"⟩, ⟨500000000, "b"⟩] [⟨2000000000, "c"⟩] 0
      (by decide) (by decide) (by decide)
    simpa using h

/-! ## Sortedness is preserved by coalescing -/

theorem truncSec_mono {a b : Int} (h : a ≤ b) : truncSec a ≤ truncSec b := by
  unfold truncSec nsPerSec
  rw [Int.fdiv_eq_ediv _ (by norm_num), Int.fdiv_eq_ediv _ (by norm_num)]
  have hd := Int.ediv_le_ediv (by norm_num : (0 : Int) < 1000000000) h
  omega

theorem truncSec_le_self (a : Int) : truncSec a ≤ a := by
  unfold truncSec nsPerSec
  rw [Int.fdiv_eq_ediv _ (by norm_num)]
  have := Int.ediv_mul_le a (by norm_num : (1000000000 : Int) ≠ 0)
  have h2 := Int.emod_nonneg a (by norm_num : (1000000000 : Int) ≠ 0)
  have h3 := Int.ediv_add_emod a 1000000000
  omega

theorem coalesceLoop_sorted :
    ∀ (rest : List underwayRecord) (t : Int) (lines : List String),
      rest.Pairwise (fun a b => a.time ≤ b.time) →
      (∀ r ∈ rest, t ≤ truncSec r.time) →
      (coalesceLoop t lines [] rest).Pairwise (fun a b => a.time ≤ b.time)
      ∧ ∀ x ∈ coalesceLoop t lines [] rest, t ≤ x.time := by
  intro rest
  induction rest with
  | nil =>
    intro t lines _ _
    constructor
    · simp [coalesceLoop]
    · intro x hx
      simp [coalesceLoop] at hx
      simp [hx]
  | cons r rs ih =>
    intro t lines hpw hge
    have htail : ∀ x ∈ rs, truncSec r.time ≤ truncSec x.time := by
      intro x hx
      exact truncSec_mono (List.rel_of_pairwise_cons hpw hx)
    by_cases h : truncSec r.time = t
    · simp only [coalesceLoop, if_pos h]
      exact ih t (lines ++ [r.data]) hpw.of_cons (fun x hx => h ▸ htail x hx)
    · simp only [coalesceLoop, if_neg h]
      rw [coalesceLoop_acc]
      have hr : t ≤ truncSec r.time := hge r (by simp)
      obtain ⟨ihp, ihge⟩ := ih (truncSec r.time) [r.data] hpw.of_cons htail
      constructor
      · refine List.pairwise_append.mpr ⟨by simp, ihp, ?_⟩
        intro x hx y hy
        simp at hx
        rw [hx]
        exact le_trans hr (ihge y hy)
      · intro x hx
        rcases List.mem_append.mp hx with hx | hx
        · simp at hx
          simp [hx]
        · exact le_trans hr (ihge x hx)

theorem coalesce_pairwise (l : List underwayRecord)
    (hl : l.Pairwise (fun a b => a.time ≤ b.time)) :
    (coalesce l).Pairwise (fun a b => a.time ≤ b.time) := by
  cases l with
  | nil => simp [coalesce]
  | cons r rest =>
    have h := coalesceLoop_sorted rest (truncSec r.time) [r.data] hl.of_cons
      (fun x hx => truncSec_mono (List.rel_of_pairwise_cons hl hx))
    exact h.1

/-! ## Claim C7: construction yields sorted records, stably -/

/-- C7: after construction, every feed's record list is sorted non-decreasing
by time, whatever the discovery order of the inputs, and the sort is stable:
for every time value, the records carrying that time appear in the same order
as in the ingestion (discovery) order.  For the underway feed the final list
(after coalescing) is sorted, and the sort stage itself is stable. -/
theorem feed_construction_sorted_stable (evtFiles : List String) (sflFiles : List SflFile)
    (uwLines : List UwLine) (events : List SeaLogEvent) :
    ((newEvtData evtFiles).1.Pairwise (fun a b => a.time ≤ b.time)
      ∧ ∀ t, (newEvtData evtFiles).1.filter (fun r => decide (r.time = t))
          = (evtRaw evtFiles).1.filter (fun r => decide (r.time = t)))
    ∧ ((newSflData sflFiles).1.Pairwise (fun a b => a.time ≤ b.time)
      ∧ ∀ t, (newSflData sflFiles).1.filter (fun r => decide (r.time = t))
          = (sflRaw sflFiles).1.filter (fun r => decide (r.time = t)))
    ∧ ((newSeaLogData events).1.Pairwise (fun a b => a.time ≤ b.time)
      ∧ ∀ t, (newSeaLogData events).1.filter (fun r => decide (r.time = t))
          = (seaLogRaw events).1.filter (fun r => decide (r.time = t)))
    ∧ ((newUnderwayData uwLines).1.Pairwise (fun a b => a.time ≤ b.time)
      ∧ ∀ t, (sortByTime (fun r => r.time) (uwRaw 0 uwLines).1).filter
              (fun r => decide (r.time = t))
          = (uwRaw 0 uwLines).1.filter (fun r => decide (r.time = t))) := by
  refine ⟨⟨?_, ?_⟩, ⟨?_, ?_⟩, ⟨?_, ?_⟩, ⟨?_, ?_⟩⟩
  · exact sortByTime_pairwise (fun r => r.time) (evtRaw evtFiles).1
  · exact fun t => sortByTime_filter_time (fun r => r.time) (evtRaw evtFiles).1 t
  · exact sortByTime_pairwise (fun r => r.time) (sflRaw sflFiles).1
  · exact fun t => sortByTime_filter_time (fun r => r.time) (sflRaw sflFiles).1 t
  · exact sortByTime_pairwise (fun r => r.time) (seaLogRaw events).1
  · exact fun t => sortByTime_filter_time (fun r => r.time) (seaLogRaw events).1 t
  · exact coalesce_pairwise _ (sortByTime_pairwise (fun r => r.time) (uwRaw 0 uwLines).1)
  · exact fun t => sortByTime_filter_time (fun r => r.time) (uwRaw 0 uwLines).1 t

theorem feed_construction_sorted_stable_witness :
    (newEvtData ["2021-05-01T10-00-05+00-00", "2021-05-01T10-00-00+00-00"]).1.Pairwise
      (fun a b => a.time ≤ b.time) :=
  (feed_construction_sorted_stable ["2021-05-01T10-00-05+00-00", "2021-05-01T10-00-00+00-00"]
    [] [] []).1.1

/-! ## Scheduler lemmas (claims C3, C4, C6) -/

theorem warpDelay_nonneg (warp : ℚ) (hw : 0 < warp) (d : Int) (hd : 0 ≤ d) :
    0 ≤ warpDelay warp d := by
  unfold warpDelay ratTrunc
  have hq : (0 : ℚ) ≤ (d : ℚ) / warp := by
    apply div_nonneg _ hw.le
    exact_mod_cast hd
  have hnum : 0 ≤ ((d : ℚ) / warp).num := Rat.num_nonneg.mpr hq
  exact Int.tdiv_nonneg hnum (Int.natCast_nonneg _)

theorem startEmitterRun_eq (key : α → Int) (cs : Int) (warp : ℚ) (hw : 0 < warp) :
    ∀ recs : List α, startEmitterRun key cs warp recs = some (emitSchedule key cs warp recs) := by
  intro recs
  induction recs with
  | nil => simp [startEmitterRun, emitSchedule]
  | cons r rest ih =>
    by_cases h : key r < cs
    · have hnle : ¬ cs ≤ key r := by omega
      simp [startEmitterRun, emitSchedule, h, hnle, ih]
    · have hle : cs ≤ key r := by omega
      have hd : 0 ≤ warpDelay warp (key r - cs) := warpDelay_nonneg warp hw _ (by omega)
      have hnneg : ¬ warpDelay warp (key r - cs) < 0 := by omega
      simp [startEmitterRun, emitSchedule, h, hle, hnneg, ih]

/-- Every record in the emission schedule lies at or after the cruise start. -/
theorem emitSchedule_mem_le (key : α → Int) (cs : Int) (warp : ℚ) (recs : List α) :
    ∀ p ∈ emitSchedule key cs warp recs, cs ≤ key p.2 := by
  intro p hp
  obtain ⟨r, hr, rfl⟩ := List.mem_map.mp hp
  have := (List.mem_filter.mp hr).2
  simpa using this

/-- C3: with a positive warp factor the driver loop performs every skip by the
strict test `Time() < cruiseStart`: it emits exactly the records at or after
the cruise-time origin (so a record strictly before the origin is never passed
to `Emit`, silently), and a record whose time equals the origin exactly is
eligible and appears in the schedule. -/
theorem emitter_skips_strictly_before (key : α → Int) (cs : Int) (warp : ℚ)
    (recs : List α) (hw : 0 < warp) :
    startEmitterRun key cs warp recs = some (emitSchedule key cs warp recs)
    ∧ (∀ r ∈ recs, key r < cs → ∀ p ∈ emitSchedule key cs warp recs, p.2 ≠ r)
    ∧ (∀ r ∈ recs, key r = cs → ∃ p ∈ emitSchedule key cs warp recs, p.2 = r) := by
  refine ⟨startEmitterRun_eq key cs warp hw recs, ?_, ?_⟩
  · intro r _ hr p hp he
    have := emitSchedule_mem_le key cs warp recs p hp
    rw [he] at this
    omega
  · intro r hr he
    refine ⟨(warpDelay warp (key r - cs), r), ?_, rfl⟩
    apply List.mem_map_of_mem
    apply List.mem_filter.mpr
    exact ⟨hr, by simp [he]⟩

theorem emitter_skips_strictly_before_witness :
    (0 : ℚ) < 1
    ∧ (startEmitterRun (fun r : underwayRecord => r.time) 5 1 [⟨3, "a"⟩, ⟨5, "b"⟩]
        = some (emitSchedule (fun r : underwayRecord => r.time) 5 1 [⟨3, "a"⟩, ⟨5, "b"⟩])
      ∧ (∀ r ∈ [(⟨3, "a"⟩ : underwayRecord), ⟨5, "b"⟩], r.time < 5 →
          ∀ p ∈ emitSchedule (fun r : underwayRecord => r.time) 5 1 [⟨3, "a"⟩, ⟨5, "b"⟩],
            p.2 ≠ r)
      ∧ (∀ r ∈ [(⟨3, "a"⟩ : underwayRecord), ⟨5, "b"⟩], r.time = 5 →
          ∃ p ∈ emitSchedule (fun r : underwayRecord => r.time) 5 1 [⟨3, "a"⟩, ⟨5, "b"⟩],
            p.2 = r)) :=
  ⟨by norm_num,
   emitter_skips_strictly_before (fun r : underwayRecord => r.time) 5 1
     [⟨3, "a"⟩, ⟨5, "b"⟩] (by norm_num)⟩

/-- C4: with a positive warp factor, once the strict skip check has passed the
computed warped delay is never negative, so the fatal negative-delay branch
(the panic, modelled by `none`) is unreachable. -/
theorem emitter_negative_delay_unreachable (key : α → Int) (cs : Int) (warp : ℚ)
    (recs : List α) (hw : 0 < warp) :
    startEmitterRun key cs warp recs ≠ none
    ∧ ∀ p ∈ emitSchedule key cs warp recs, 0 ≤ p.1 := by
  constructor
  · rw [startEmitterRun_eq key cs warp hw recs]
    simp
  · intro p hp
    obtain ⟨r, hr, rfl⟩ := List.mem_map.mp hp
    have hle : cs ≤ key r := by simpa using (List.mem_filter.mp hr).2
    exact warpDelay_nonneg warp hw _ (by omega)

theorem emitter_negative_delay_unreachable_witness :
    (0 : ℚ) < 2
    ∧ (startEmitterRun (fun r : underwayRecord => r.time) 0 2 [⟨7, "a"⟩] ≠ none
      ∧ ∀ p ∈ emitSchedule (fun r : underwayRecord => r.time) 0 2 [⟨7, "a"⟩], 0 ≤ p.1) :=
  ⟨by norm_num,
   emitter_negative_delay_unreachable (fun r : underwayRecord => r.time) 0 2
     [⟨7, "a"⟩] (by norm_num)⟩

/-! ## Claim C5: the computed cruise-time origin -/

theorem minTime_go (es : List Int) :
    ∀ acc : Int, 0 < acc → (∀ t ∈ es, 0 < t) →
      es.foldl (fun first t => if first = 0 ∨ t < first then t else first) acc ∈ acc :: es
      ∧ ∀ t ∈ acc :: es,
          es.foldl (fun first t => if first = 0 ∨ t < first then t else first) acc ≤ t := by
  induction es with
  | nil =>
    intro acc _ _
    refine ⟨by simp, ?_⟩
    intro t ht
    simp only [List.foldl_nil]
    simp at ht
    omega
  | cons e es' ih =>
    intro acc hacc hpos
    have he : 0 < e := hpos e (by simp)
    by_cases h : e < acc
    · have hstep : (if acc = 0 ∨ e < acc then e else acc) = e := if_pos (Or.inr h)
      rw [List.foldl_cons, hstep]
      obtain ⟨h1, h2⟩ := ih e he (fun t ht => hpos t (List.mem_cons_of_mem e ht))
      constructor
      · exact List.mem_cons_of_mem acc h1
      · intro t ht
        rcases List.mem_cons.mp ht with rfl | ht
        · have := h2 e (by simp)
          omega
        · exact h2 t ht
    · have hstep : (if acc = 0 ∨ e < acc then e else acc) = acc := by
        apply if_neg
        push_neg
        omega
      rw [List.foldl_cons, hstep]
      obtain ⟨h1, h2⟩ := ih acc hacc (fun t ht => hpos t (List.mem_cons_of_mem e ht))
      constructor
      · rcases List.mem_cons.mp h1 with h1 | h1
        · rw [h1]
          exact List.mem_cons_self _ _
        · exact List.mem_cons_of_mem acc (List.mem_cons_of_mem e h1)
      · intro t ht
        rcases List.mem_cons.mp ht with rfl | ht
        · exact h2 t (by simp)
        · rcases List.mem_cons.mp ht with rfl | ht
          · have := h2 acc (by simp)
            omega
          · exact h2 t (List.mem_cons_of_mem acc ht)

/-- C5, counterexample to the claim as stated: when one feed is empty (its
`Earliest()` is the zero time) and the other's earliest record time is one
second after the zero time, the computed origin is not the minimum of the
`Earliest` values (that minimum is the zero time), and swapping the two feeds
changes the result — the fold is order-dependent. -/
theorem minTime_counterexample :
    minTime [earliest (fun r : underwayRecord => r.time) [],
             earliest (fun r : underwayRecord => r.time) [⟨nsPerSec, "a"⟩]] = nsPerSec
    ∧ minTime [earliest (fun r : underwayRecord => r.time) [⟨nsPerSec, "a"⟩],
               earliest (fun r : underwayRecord => r.time) []] = 0
    ∧ nsPerSec ≠ (0 : Int) := by
  refine ⟨by decide, by decide, by decide⟩

/-- C5, amended: when every feed sequence is nonempty — every `Earliest()`
value is a real (positive, hence non-zero) timestamp — `minTime` returns the
minimum of the `Earliest` values: it is one of them and is at most each of
them, which also makes the result independent of the order in which the feeds
are examined.  (With an empty feed present, the source's fold is
order-dependent, as the counterexample shows.) -/
theorem minTime_is_min_of_nonzero (es : List Int) (hne : es ≠ [])
    (hpos : ∀ t ∈ es, 0 < t) :
    minTime es ∈ es ∧ ∀ t ∈ es, minTime es ≤ t := by
  cases es with
  | nil => exact absurd rfl hne
  | cons e es' =>
    have he : 0 < e := hpos e (by simp)
    have hstep : minTime (e :: es')
        = es'.foldl (fun first t => if first = 0 ∨ t < first then t else first) e := by
      rw [minTime, List.foldl_cons]
      norm_num
    obtain ⟨h1, h2⟩ := minTime_go es' e he (fun t ht => hpos t (List.mem_cons_of_mem e ht))
    rw [hstep]
    exact ⟨h1, h2⟩

theorem minTime_is_min_of_nonzero_witness :
    ([3, 2, 5] : List Int) ≠ []
    ∧ (∀ t ∈ ([3, 2, 5] : List Int), 0 < t)
    ∧ minTime [3, 2, 5] ∈ ([3, 2, 5] : List Int)
    ∧ ∀ t ∈ ([3, 2, 5] : List Int), minTime [3, 2, 5] ≤ t := by
  have h := minTime_is_min_of_nonzero [3, 2, 5] (by decide) (by decide)
  exact ⟨by decide, by decide, h.1, h.2⟩

/-! ## Claim C6: the concrete two-file timing scenario -/

theorem warpDelay_one (d : Int) : warpDelay 1 d = d := by
  unfold warpDelay ratTrunc
  rw [div_one]
  rw [Rat.num_intCast, Rat.den_intCast]
  simp

/-- C6: for the two files timestamped `2021-05-01T10-00-00+00-00` and
`2021-05-01T10-00-05+00-00`, with no explicit cruise start and warp 1.0: the
computed cruise origin is 2021-05-01 10:00:00 UTC, the replay origin is `now`
plus the 5-second grace, the first record's absolute fire time is the replay
origin (`now + 5s`), and the second record's is `now + 10s`. -/
theorem scenario_two_files (now : Int) :
    minTime [earliest (fun r : evtFile => r.time) (newEvtData scenarioFiles).1]
      = goTimeNS 2021 5 1 10 0 0 0
    ∧ replayStart now = now + 5 * nsPerSec
    ∧ (emitSchedule (fun r : evtFile => r.time)
          (minTime [earliest (fun r : evtFile => r.time) (newEvtData scenarioFiles).1]) 1
          ((newEvtData scenarioFiles).1)).map (fun p => replayStart now + p.1)
        = [replayStart now, now + 10 * nsPerSec] := by
  have hraw : (evtRaw scenarioFiles).1
      = [⟨goTimeNS 2021 5 1 10 0 0 0, "2021-05-01T10-00-00+00-00"⟩,
         ⟨goTimeNS 2021 5 1 10 0 5 0, "2021-05-01T10-00-05+00-00"⟩] := by decide
  have hdata : (newEvtData scenarioFiles).1
      = [⟨goTimeNS 2021 5 1 10 0 0 0, "2021-05-01T10-00-00+00-00"⟩,
         ⟨goTimeNS 2021 5 1 10 0 5 0, "2021-05-01T10-00-05+00-00"⟩] := by
    show sortByTime (fun r => r.time) (evtRaw scenarioFiles).1 = _
    rw [hraw]
    exact List.mergeSort_of_sorted (by decide)
  rw [hdata]
  refine ⟨by decide, rfl, ?_⟩
  have hsched : emitSchedule (fun r : evtFile => r.time)
      (minTime [earliest (fun r : evtFile => r.time)
        [(⟨goTimeNS 2021 5 1 10 0 0 0, "2021-05-01T10-00-00+00-00"⟩ : evtFile),
         ⟨goTimeNS 2021 5 1 10 0 5 0, "2021-05-01T10-00-05+00-00"⟩]]) 1
      [(⟨goTimeNS 2021 5 1 10 0 0 0, "2021-05-01T10-00-00+00-00"⟩ : evtFile),
       ⟨goTimeNS 2021 5 1 10 0 5 0, "2021-05-01T10-00-05+00-00"⟩]
      = [(0, ⟨goTimeNS 2021 5 1 10 0 0 0, "2021-05-01T10-00-00+00-00"⟩),
         (5 * nsPerSec, ⟨goTimeNS 2021 5 1 10 0 5 0, "2021-05-01T10-00-05+00-00"⟩)] := by
    simp only [emitSchedule, warpDelay_one]
    decide
  rw [hsched]
  simp only [List.map, replayStart, graceNS, nsPerSec, List.cons.injEq]
  norm_num
  omega

theorem scenario_two_files_witness :
    minTime [earliest (fun r : evtFile => r.time) (newEvtData scenarioFiles).1]
      = goTimeNS 2021 5 1 10 0 0 0
    ∧ replayStart 0 = 0 + 5 * nsPerSec
    ∧ (emitSchedule (fun r : evtFile => r.time)
          (minTime [earliest (fun r : evtFile => r.time) (newEvtData scenarioFiles).1]) 1
          ((newEvtData scenarioFiles).1)).map (fun p => replayStart 0 + p.1)
        = [replayStart 0, 0 + 10 * nsPerSec] :=
  scenario_two_files 0

end CruiseReplay
